import Mathlib

set_option autoImplicit false

namespace Broot

/-! Shallow embedding of the gitignore resolution engine of src/git/ignore.rs:
rule-line parsing (the regex and the glob pattern compiler/matcher from the
glob crate), rule files, ignore chains and the GitIgnorer arena, together
with its root_chain, deeper_chain and accepts operations. -/

/-- Unicode White_Space predicate: the character class matched by the regex
class backslash-s and trimmed by str::trim in Rust. -/
def isWs (c : Char) : Bool :=
  c == ' ' || c == '\t' || c == '\n' || c == '\x0b' || c == '\x0c' || c == '\r' ||
  c == '\u0085' || c == ' ' || c == ' ' ||
  (' ' ≤ c && c ≤ ' ') ||
  c == ' ' || c == ' ' || c == ' ' || c == ' ' || c == '　'

/-! The rule-line regex of GitIgnoreRule::from is the fixed anchored pattern
caret ws* (!)? (.+?) (/)? ws* dollar, run with the leftmost-first
(backtracking-preference) semantics of the Rust regex crate.  The next four
definitions are a direct specialization of that backtracking search to this
fixed pattern.  tailMatch handles the optional slash plus trailing
whitespace, bodyMatch the lazy one-or-more body (preferring the shortest
body), bangMatch the optional negation (preferring to take the bang), and
startMatch the greedy leading whitespace (preferring the longest run, with
backtracking). -/

/-- Run the regex remainder, optional slash then trailing whitespace, against
the rest of the line; on success return whether the slash was taken.  The
backtracking engine prefers taking the optional slash; when the slash branch
fails the slashless branch is tried on the same characters, and for a list
starting with a slash that branch always fails because a slash is not
whitespace. -/
def tailMatch : List Char → Option Bool
  | [] => some false
  | c :: rest =>
    if c = '/' ∧ rest.all isWs then some true
    else if (c :: rest).all isWs then some false
    else none

/-- Run the lazy body, one or more non-newline characters, preferring the
shortest body whose remainder satisfies tailMatch; returns the captured body
and the directory flag. -/
def bodyMatch : List Char → Option (List Char × Bool)
  | [] => none
  | c :: rest =>
    if c = '\n' then none
    else
      match tailMatch rest with
      | some d => some ([c], d)
      | none =>
        match bodyMatch rest with
        | some (b, d) => some (c :: b, d)
        | none => none

/-- Optional negation group: prefer consuming a leading bang when the rest
still matches, otherwise retry with the bang as part of the body. -/
def bangMatch (r : List Char) : Option (Bool × List Char × Bool) :=
  match r with
  | [] => (bodyMatch []).map fun bd => (false, bd.1, bd.2)
  | c :: rest =>
    if c = '!' then
      match bodyMatch rest with
      | some (b, d) => some (true, b, d)
      | none => (bodyMatch (c :: rest)).map fun bd => (false, bd.1, bd.2)
    else (bodyMatch (c :: rest)).map fun bd => (false, bd.1, bd.2)

/-- Greedy leading whitespace with backtracking: try the longest whitespace
run first, falling back to shorter runs while the rest fails. -/
def startMatch : List Char → Option (Bool × List Char × Bool)
  | [] => bangMatch []
  | c :: rest =>
    if isWs c then
      match startMatch rest with
      | some r => some r
      | none => bangMatch (c :: rest)
    else bangMatch (c :: rest)

/-! Glob pattern compiler, following glob::Pattern::new of the glob crate. -/

/-- One entry of a glob bracket class: either a single character or an
inclusive character range. -/
inductive CharSpecifier where
  | single : Char → CharSpecifier
  | range : Char → Char → CharSpecifier
deriving DecidableEq, Repr

/-- One compiled glob pattern token. -/
inductive PatternToken where
  | lit : Char → PatternToken
  | anyChar : PatternToken
  | anySequence : PatternToken
  | anyRecursiveSequence : PatternToken
  | anyWithin : List CharSpecifier → PatternToken
  | anyExcept : List CharSpecifier → PatternToken
deriving DecidableEq, Repr

/-- parse_char_specifiers of the glob crate: a dash with a character on each
side forms a range, every other character stands for itself. -/
def parseCharSpecifiers : List Char → List CharSpecifier
  | a :: '-' :: b :: rest => CharSpecifier.range a b :: parseCharSpecifiers rest
  | a :: rest => CharSpecifier.single a :: parseCharSpecifiers rest
  | [] => []

/-- A compiled glob pattern: its token list.  The original text and the
is_recursive flag kept by the glob crate play no role in matching. -/
structure Pattern where
  tokens : List PatternToken
deriving DecidableEq, Repr

/-- Collapse helper of glob::Pattern::new: push a recursive-sequence token
unless the last pushed token is already one (and at least two tokens exist),
working on the reversed accumulator. -/
def pushRecursive (acc : List PatternToken) : List PatternToken :=
  match acc with
  | PatternToken.anyRecursiveSequence :: _ :: _ => acc
  | _ => PatternToken.anyRecursiveSequence :: acc

/-- The main loop of glob::Pattern::new.  prev is the character just before
the current position (used by the double-star component check), revAcc the
tokens built so far in reverse.  Returns none exactly when the crate returns
a PatternError: a run of three or more stars, or a double star that is not a
whole path component. -/
def globNewLoop (fuel : Nat) (cs : List Char) (prev : Option Char) (revAcc : List PatternToken) : Option (List PatternToken) :=
  match fuel with
  | 0 => none
  | fuel + 1 =>
    match cs with
    | [] => some revAcc.reverse
    | '?' :: rest => globNewLoop fuel rest (some '?') (PatternToken.anyChar :: revAcc)
    | '*' :: '*' :: '*' :: _ => none
    | '*' :: '*' :: '/' :: rest3 =>
      if prev = none ∨ prev = some '/' then globNewLoop fuel rest3 (some '/') (pushRecursive revAcc)
      else none
    | ['*', '*'] =>
      if prev = none ∨ prev = some '/' then some (pushRecursive revAcc).reverse
      else none
    | '*' :: '*' :: _ => none
    | '*' :: rest => globNewLoop fuel rest (some '*') (PatternToken.anySequence :: revAcc)
    | '[' :: '!' :: x :: y :: rest4 =>
      (match (y :: rest4).findIdx? (· = ']') with
       | some j =>
         let cs2 := parseCharSpecifiers ((x :: y :: rest4).take (j + 1))
         globNewLoop fuel ((y :: rest4).drop (j + 1)) (some ']') (PatternToken.anyExcept cs2 :: revAcc)
       | none => globNewLoop fuel ('!' :: x :: y :: rest4) (some '[') (PatternToken.lit '[' :: revAcc))
    | '[' :: c0 :: c2 :: rest3 =>
      if c0 = '!' then globNewLoop fuel (c0 :: c2 :: rest3) (some '[') (PatternToken.lit '[' :: revAcc)
      else
        match (c2 :: rest3).findIdx? (· = ']') with
        | some j =>
          let cs2 := parseCharSpecifiers ((c0 :: c2 :: rest3).take (j + 1))
          globNewLoop fuel ((c2 :: rest3).drop (j + 1)) (some ']') (PatternToken.anyWithin cs2 :: revAcc)
        | none => globNewLoop fuel (c0 :: c2 :: rest3) (some '[') (PatternToken.lit '[' :: revAcc)
    | '[' :: rest => globNewLoop fuel rest (some '[') (PatternToken.lit '[' :: revAcc)
    | c :: rest => globNewLoop fuel rest (some c) (PatternToken.lit c :: revAcc)

/-- glob::Pattern::new, with errors collapsed to none.  Every recursive step
of globNewLoop consumes at least one character, so a fuel of one more than
the pattern length makes the fuel-exhaustion branch unreachable. -/
def Pattern.new (p : List Char) : Option Pattern :=
  (globNewLoop (p.length + 1) p none []).map Pattern.mk

/-- glob::MatchOptions. -/
structure MatchOptions where
  case_sensitive : Bool
  require_literal_separator : Bool
  require_literal_leading_dot : Bool
deriving DecidableEq, Repr

/-- char::is_ascii of Rust: code point at most 0x7F. -/
def charIsAscii (c : Char) : Bool := c.toNat ≤ 127

/-- chars_eq of the glob crate on a unix target: ascii-case-insensitive
comparison when case sensitivity is off, plain equality otherwise. -/
def charsEq (a b : Char) (caseSensitive : Bool) : Bool :=
  if !caseSensitive && charIsAscii a && charIsAscii b then a.toLower == b.toLower
  else a == b

/-- in_char_specifiers of the glob crate. -/
def inCharSpecifiers (specs : List CharSpecifier) (c : Char) (opts : MatchOptions) : Bool :=
  specs.any fun s =>
    match s with
    | CharSpecifier.single sc => charsEq c sc opts.case_sensitive
    | CharSpecifier.range a b =>
      (if !opts.case_sensitive && charIsAscii c && charIsAscii a && charIsAscii b then
        let a1 := a.toLower
        let b1 := b.toLower
        if a1 ≠ a1.toUpper ∧ b1 ≠ b1.toUpper then
          decide (a1 ≤ c.toLower) && decide (c.toLower ≤ b1)
        else false
      else false)
      || (decide (a ≤ c) && decide (c ≤ b))

/-- The three-valued result of glob matching: entirePatternDoesntMatch is an
early abort used when the candidate ran out of characters. -/
inductive MatchResult where
  | isMatch : MatchResult
  | subPatternDoesntMatch : MatchResult
  | entirePatternDoesntMatch : MatchResult
deriving DecidableEq, Repr

mutual
/-- matches_from of glob::Pattern: fs is follows_separator, file the
remaining candidate characters, toks the remaining pattern tokens.  The
recursion is bounded by a fuel argument; every recursive edge strictly
decreases the sum of the candidate and token lengths, so the wrapper's fuel
of one more than that sum makes the fuel-exhaustion branch unreachable. -/
def matchesFromF (opts : MatchOptions) (fuel : Nat) (fs : Bool) (file : List Char) (toks : List PatternToken) : MatchResult :=
  match fuel with
  | 0 => .subPatternDoesntMatch
  | fuel + 1 =>
    match toks with
    | [] => if file.isEmpty then .isMatch else .subPatternDoesntMatch
    | PatternToken.anySequence :: rest =>
      (match matchesFromF opts fuel fs file rest with
       | .subPatternDoesntMatch => starLoopF opts fuel false fs file rest
       | m => m)
    | PatternToken.anyRecursiveSequence :: rest =>
      (match matchesFromF opts fuel fs file rest with
       | .subPatternDoesntMatch => starLoopF opts fuel true fs file rest
       | m => m)
    | tok :: rest =>
      match file with
      | [] => .entirePatternDoesntMatch
      | c :: file2 =>
        let isSep : Bool := c == '/'
        let guarded : Bool := (opts.require_literal_separator && isSep) ||
          (fs && opts.require_literal_leading_dot && (c == '.'))
        let matched : Bool :=
          match tok with
          | PatternToken.anyChar => !guarded
          | PatternToken.anyWithin specs => !guarded && inCharSpecifiers specs c opts
          | PatternToken.anyExcept specs => !guarded && !(inCharSpecifiers specs c opts)
          | PatternToken.lit c2 => charsEq c c2 opts.case_sensitive
          | _ => false
        if matched then matchesFromF opts fuel isSep file2 rest else .subPatternDoesntMatch

/-- The while-let loop of a star token: consume one candidate character at a
time, retrying the rest of the pattern after each character. -/
def starLoopF (opts : MatchOptions) (fuel : Nat) (recursive : Bool) (fs : Bool) (file : List Char) (rest : List PatternToken) : MatchResult :=
  match fuel with
  | 0 => .subPatternDoesntMatch
  | fuel + 1 =>
    match file with
    | [] => .subPatternDoesntMatch
    | c :: file2 =>
      if fs && opts.require_literal_leading_dot && (c == '.') then .subPatternDoesntMatch
      else
        let fs2 : Bool := c == '/'
        if recursive && !fs2 then starLoopF opts fuel recursive fs2 file2 rest
        else if !recursive && opts.require_literal_separator && fs2 then .subPatternDoesntMatch
        else
          match matchesFromF opts fuel fs2 file2 rest with
          | .subPatternDoesntMatch => starLoopF opts fuel recursive fs2 file2 rest
          | m => m
end

/-- matches_from with the sufficient fuel described at matchesFromF. -/
def matchesFrom (opts : MatchOptions) (fs : Bool) (file : List Char) (toks : List PatternToken) : MatchResult :=
  matchesFromF opts (file.length + toks.length + 1) fs file toks

/-- matches_with: match a whole candidate string, starting as if just after a
separator. -/
def Pattern.matchesWith (p : Pattern) (s : List Char) (opts : MatchOptions) : Bool :=
  matchesFrom opts true s p.tokens == .isMatch

/-- matches_path_with: paths are carried as strings in this embedding, so the
to_str conversion always succeeds. -/
def Pattern.matchesPathWith (p : Pattern) (path : List Char) (opts : MatchOptions) : Bool :=
  p.matchesWith path opts

/-- One rule of a gitignore file, as in struct GitIgnoreRule. -/
structure GitIgnoreRule where
  ok : Bool
  directory : Bool
  filename : Bool
  pattern : Pattern
  pattern_options : MatchOptions
deriving DecidableEq, Repr

/-- GitIgnoreRule::from: parse one line against a reference directory. -/
def GitIgnoreRule.fromLine (line : List Char) (refDir : List Char) : Option GitIgnoreRule :=
  if line.head? = some '#' then none
  else
    match startMatch line with
    | none => none
    | some (neg, body, dir) =>
      let hasSeparator : Bool := body.contains '/'
      let p := if hasSeparator ∧ body.head? = some '/' then refDir ++ body else body
      match Pattern.new p with
      | none => none
      | some pattern =>
        some { ok := neg
               directory := dir
               filename := !hasSeparator
               pattern := pattern
               pattern_options :=
                 { case_sensitive := true
                   require_literal_separator := hasSeparator
                   require_literal_leading_dot := false } }

/-- String-level wrapper of GitIgnoreRule::from. -/
def GitIgnoreRule.ofString (line : String) (refDir : String) : Option GitIgnoreRule :=
  GitIgnoreRule.fromLine line.data refDir.data

/-- The rules of one gitignore file, as in struct GitIgnoreFile. -/
structure GitIgnoreFile where
  rules : List GitIgnoreRule
deriving DecidableEq, Repr

/-- A raw file as the line reader of GitIgnoreFile::new sees it: each entry
is one line read, where none models a line whose read fails (for example a
byte sequence that is not valid UTF-8). -/
abbrev RawFile := List (Option (List Char))

/-- The line loop of GitIgnoreFile::new: push the rule of every parseable
line, and propagate a line read failure as a failure of the whole file. -/
def collectRules (refDir : List Char) : RawFile → List GitIgnoreRule → Option (List GitIgnoreRule)
  | [], acc => some acc
  | none :: _, _ => none
  | some l :: rest, acc =>
    match GitIgnoreRule.fromLine l refDir with
    | some r => collectRules refDir rest (acc ++ [r])
    | none => collectRules refDir rest acc

/-- GitIgnoreFile::new: none content models a file that cannot be opened;
otherwise read the lines, collect the rules, and reverse them so that the
last rule of the file comes first. -/
def GitIgnoreFile.new (content : Option RawFile) (refDir : List Char) : Option GitIgnoreFile :=
  match content with
  | none => none
  | some lineResults =>
    (collectRules refDir lineResults []).map fun rs => ⟨rs.reverse⟩

/-- Model of the filesystem state the engine reads.  A path is a list of
components with the innermost component first, so Path::parent is the tail
of the list and Path::join prepends a component.  files gives the line reads
of an openable file (none when the file cannot be opened), repos models
is_repo (presence of the .git metadata directory), and globalPath models the
process-wide GLOBAL_GI_PATH cache of find_global_ignore. -/
structure FS where
  files : List String → Option RawFile
  repos : List String → Bool
  globalPath : Option (List String)

/-- Render a directory the way Path::to_string_lossy renders it (outermost
component first), for use as the reference directory of anchored patterns. -/
def pathStr (dir : List String) : List Char := (String.intercalate "/" dir.reverse).data

/-- GitIgnoreFile::global: parse the cached global ignore file path, if any,
against the given repository directory. -/
def GitIgnoreFile.global (fs : FS) (repoDir : List String) : Option GitIgnoreFile :=
  match fs.globalPath with
  | some path => GitIgnoreFile.new (fs.files path) (pathStr repoDir)
  | none => none

/-- struct GitIgnoreChain: the in-repository flag and the arena handles of
the rule files in scope, in registration order. -/
structure GitIgnoreChain where
  in_repo : Bool := false
  file_ids : List Nat := []
deriving DecidableEq, Repr

/-- GitIgnoreChain::push. -/
def GitIgnoreChain.push (c : GitIgnoreChain) (id : Nat) : GitIgnoreChain :=
  { c with file_ids := c.file_ids ++ [id] }

/-- struct GitIgnorer: the arena of parsed rule files, with ids as stable
indices. -/
structure GitIgnorer where
  files : List GitIgnoreFile := []
deriving DecidableEq, Repr

/-- Arena allocation: append the file and return its id. -/
def GitIgnorer.alloc (g : GitIgnorer) (f : GitIgnoreFile) : GitIgnorer × Nat :=
  (⟨g.files ++ [f]⟩, g.files.length)

/-- Arena lookup by id. -/
def GitIgnorer.fileAt (g : GitIgnorer) (id : Nat) : GitIgnoreFile :=
  g.files.getD id ⟨[]⟩

/-- One iteration of the ascent loop of GitIgnorer::root_chain on the
current directory: load the global file when the directory is a repository
root, load the directory's local ignore file, and mark the chain in_repo at
a repository root. -/
def rootChainStep (fs : FS) (g : GitIgnorer) (chain : GitIgnoreChain) (dir : List String) : GitIgnorer × GitIgnoreChain :=
  let isRepo := fs.repos dir
  let gc1 :=
    if isRepo then
      match GitIgnoreFile.global fs dir with
      | some gif =>
        let a := g.alloc gif
        (a.1, chain.push a.2)
      | none => (g, chain)
    else (g, chain)
  let gc2 :=
    match GitIgnoreFile.new (fs.files (".gitignore" :: dir)) (pathStr dir) with
    | some gif =>
      let a := gc1.1.alloc gif
      (a.1, gc1.2.push a.2)
    | none => gc1
  if isRepo then (gc2.1, { gc2.2 with in_repo := true })
  else gc2

/-- The ascent loop of GitIgnorer::root_chain: run the step for the current
directory, stop at a repository root (the step marked the chain in_repo) or
at the filesystem root (a directory with no parent, the empty component
list), otherwise continue with the parent directory. -/
def GitIgnorer.rootChainGo (fs : FS) (g : GitIgnorer) (chain : GitIgnoreChain) (dir : List String) : GitIgnorer × GitIgnoreChain :=
  let gc2 := rootChainStep fs g chain dir
  if fs.repos dir then gc2
  else
    match dir with
    | [] => gc2
    | _ :: parent => GitIgnorer.rootChainGo fs gc2.1 gc2.2 parent

/-- GitIgnorer::root_chain. -/
def GitIgnorer.root_chain (g : GitIgnorer) (fs : FS) (dir : List String) : GitIgnorer × GitIgnoreChain :=
  GitIgnorer.rootChainGo fs g {} dir

/-- GitIgnorer::deeper_chain: reset the chain at a nested repository root
(loading only its global file and forcing in_repo), otherwise clone the
parent chain; then, when in a repository, load and append the local ignore
file of the directory. -/
def GitIgnorer.deeper_chain (g : GitIgnorer) (fs : FS) (parent_chain : GitIgnoreChain) (dir : List String) : GitIgnorer × GitIgnoreChain :=
  let gc :=
    if fs.repos dir then
      let start : GitIgnoreChain := {}
      let gc0 :=
        match GitIgnoreFile.global fs dir with
        | some gif =>
          let a := g.alloc gif
          (a.1, start.push a.2)
        | none => (g, start)
      (gc0.1, { gc0.2 with in_repo := true })
    else (g, parent_chain)
  if gc.2.in_repo then
    match GitIgnoreFile.new (fs.files (".gitignore" :: dir)) (pathStr dir) with
    | some gif =>
      let a := gc.1.alloc gif
      (a.1, gc.2.push a.2)
    | none => gc
  else gc

/-- The inner rule loop of GitIgnorer::accepts over one file's stored rules:
skip directory-only rules for non-directories, match filename-only rules
against the bare filename and the others against the full path, and return
the keep flag of the first matching rule. -/
def rulesVerdict (path filename : List Char) (directory : Bool) : List GitIgnoreRule → Option Bool
  | [] => none
  | rule :: rest =>
    if rule.directory && !directory then rulesVerdict path filename directory rest
    else
      let ok := if rule.filename then rule.pattern.matchesWith filename rule.pattern_options
                else rule.pattern.matchesPathWith path rule.pattern_options
      if ok then some rule.ok else rulesVerdict path filename directory rest

/-- The outer loop of GitIgnorer::accepts over the chain's files, already
given in the scanned order. -/
def chainVerdict (g : GitIgnorer) (path filename : List Char) (directory : Bool) : List Nat → Option Bool
  | [] => none
  | id :: rest =>
    match rulesVerdict path filename directory (g.fileAt id).rules with
    | some v => some v
    | none => chainVerdict g path filename directory rest

/-- GitIgnorer::accepts: true outside a repository; otherwise scan the
chain's files in reverse registration order and return the first verdict,
defaulting to true. -/
def GitIgnorer.accepts (g : GitIgnorer) (chain : GitIgnoreChain) (path filename : List Char) (directory : Bool) : Bool :=
  if !chain.in_repo then true
  else
    match chainVerdict g path filename directory chain.file_ids.reverse with
    | some v => v
    | none => true

/-! Derived notions used to state the claims. -/

/-- A rule decides the query when it is not skipped (directory-only rules
are skipped for non-directories) and its pattern matches the filename (for
filename-only rules) or the full path (for the others). -/
def ruleApplies (path filename : List Char) (directory : Bool) (rule : GitIgnoreRule) : Bool :=
  !(rule.directory && !directory) &&
  (if rule.filename then rule.pattern.matchesWith filename rule.pattern_options
   else rule.pattern.matchesPathWith path rule.pattern_options)

/-- Specification-side restatement of the accept query for a chain inside a
repository, following the words of the spec (section 4.5): flatten the rules
of the chain's files taken in reverse registration order (keeping each
file's stored rule order), take the first rule that is not skipped and
matches, and return its keep flag, defaulting to true when no rule matches. -/
def acceptsSpec (g : GitIgnorer) (chain : GitIgnoreChain) (path filename : List Char) (directory : Bool) : Bool :=
  match ((chain.file_ids.reverse.map fun id => (g.fileAt id).rules).flatten.find?
           (ruleApplies path filename directory)).map GitIgnoreRule.ok with
  | some v => v
  | none => true

/-! Shared lemmas. -/

/-- The rule loop returns the keep flag of the first applicable rule. -/
theorem rulesVerdict_eq_find (path filename : List Char) (directory : Bool) (rs : List GitIgnoreRule) :
    rulesVerdict path filename directory rs
      = (rs.find? (ruleApplies path filename directory)).map GitIgnoreRule.ok := by
  induction rs with
  | nil => rfl
  | cons r rest ih =>
    by_cases h1 : (r.directory && !directory) = true
    · have happ : ruleApplies path filename directory r = false := by
        simp [ruleApplies, h1]
      simp [rulesVerdict, h1, List.find?, happ, ih]
    · by_cases h2 : (if r.filename then r.pattern.matchesWith filename r.pattern_options
                     else r.pattern.matchesPathWith path r.pattern_options) = true
      · have happ : ruleApplies path filename directory r = true := by
          simp [ruleApplies, h1, h2]
        simp [rulesVerdict, h1, h2, List.find?, happ]
      · have happ : ruleApplies path filename directory r = false := by
          simp only [ruleApplies]
          simp [h1, h2]
        simp [rulesVerdict, h1, h2, List.find?, happ, ih]

/-- The file loop returns the keep flag of the first applicable rule of the
flattened rule lists. -/
theorem chainVerdict_eq_find (g : GitIgnorer) (path filename : List Char) (directory : Bool) (ids : List Nat) :
    chainVerdict g path filename directory ids
      = ((ids.map fun id => (g.fileAt id).rules).flatten.find?
           (ruleApplies path filename directory)).map GitIgnoreRule.ok := by
  induction ids with
  | nil => rfl
  | cons id rest ih =>
    simp only [chainVerdict, rulesVerdict_eq_find, List.map_cons, List.flatten, List.find?_append]
    cases h : (g.fileAt id).rules.find? (ruleApplies path filename directory) with
    | some r => simp [h]
    | none => simp [h, ih, List.flatten]

/-- Element lookup just past an appended block. -/
theorem getD_append_self {α : Type} (l l2 : List α) (d : α) :
    (l ++ l2).getD l.length d = l2.getD 0 d := by
  induction l with
  | nil => rfl
  | cons a t ih => simpa [List.getD] using ih

/-- Element lookup at the second position past an appended block. -/
theorem getD_append_two {α : Type} (l : List α) (a b d : α) :
    (l ++ [a, b]).getD (l.length + 1) d = b := by
  induction l with
  | nil => rfl
  | cons x t ih => simpa [List.getD] using ih

/-- Taking the first block of an appended list. -/
theorem take_append_self {α : Type} (l l2 : List α) : (l ++ l2).take l.length = l := by
  induction l with
  | nil => rfl
  | cons x t ih => simp [ih]

/-- Arena lookup of a single freshly appended file. -/
theorem fileAt_append_one (l : List GitIgnoreFile) (a : GitIgnoreFile) :
    GitIgnorer.fileAt ⟨l ++ [a]⟩ l.length = a := by
  induction l with
  | nil => rfl
  | cons x t ih => simp only [GitIgnorer.fileAt, List.getD] at ih ⊢; simp [ih]

/-- Arena lookup of the first of two freshly appended files. -/
theorem fileAt_append_fst (l : List GitIgnoreFile) (a b : GitIgnoreFile) :
    GitIgnorer.fileAt ⟨l ++ [a, b]⟩ l.length = a := by
  induction l with
  | nil => rfl
  | cons x t ih => simpa [GitIgnorer.fileAt, List.getD] using ih

/-- Arena lookup of the second of two freshly appended files. -/
theorem fileAt_append_snd (l : List GitIgnoreFile) (a b : GitIgnoreFile) :
    GitIgnorer.fileAt ⟨l ++ [a, b]⟩ (l.length + 1) = b := by
  induction l with
  | nil => rfl
  | cons x t ih => simpa [GitIgnorer.fileAt, List.getD] using ih

/-! Claim C6. -/

/-- Claim C6: for every chain whose in_repo flag is false, accepts returns
true for every path, filename and directory flag, without evaluating any
rule of the files the chain references. -/
theorem accepts_outside_repo (g : GitIgnorer) (chain : GitIgnoreChain)
    (path filename : List Char) (directory : Bool)
    (h : chain.in_repo = false) :
    g.accepts chain path filename directory = true := by
  simp [GitIgnorer.accepts, h]

/-- A rule parsed from the line *.tmp: a filename-only rule ignoring every
name ending in .tmp. -/
def tmpRule : GitIgnoreRule :=
  { ok := false
    directory := false
    filename := true
    pattern := ⟨[PatternToken.anySequence, PatternToken.lit '.',
                 PatternToken.lit 't', PatternToken.lit 'm', PatternToken.lit 'p']⟩
    pattern_options :=
      { case_sensitive := true
        require_literal_separator := false
        require_literal_leading_dot := false } }

/-- An arena holding one file whose only rule is tmpRule. -/
def gTmp : GitIgnorer := ⟨[⟨[tmpRule]⟩]⟩

/-- Witness for accepts_outside_repo, on an input that a referenced rule
does match: the rule would ignore a.tmp, yet accepts returns true. -/
theorem accepts_outside_repo_witness :
    (GitIgnoreChain.mk false [0]).in_repo = false ∧
    ruleApplies "a.tmp".data "a.tmp".data false tmpRule = true ∧
    gTmp.accepts ⟨false, [0]⟩ "a.tmp".data "a.tmp".data false = true :=
  ⟨rfl, by decide, accepts_outside_repo gTmp ⟨false, [0]⟩ "a.tmp".data "a.tmp".data false rfl⟩

/-! Claim C3. -/

/-- Claim C3: for a chain inside a repository, accepts scans the chain's
file handles in reverse registration order and each file's rules in stored
order, skips directory-only rules for non-directories, matches filename-only
rules against the bare filename and the others against the full path,
returns the first matching rule's keep flag, and returns true when nothing
matches; equivalently, it agrees with the flattened first-match query
acceptsSpec. -/
theorem accepts_scan_spec (g : GitIgnorer) (chain : GitIgnoreChain)
    (path filename : List Char) (directory : Bool)
    (h : chain.in_repo = true) :
    g.accepts chain path filename directory = acceptsSpec g chain path filename directory := by
  simp only [GitIgnorer.accepts, acceptsSpec, h, chainVerdict_eq_find]
  simp

/-- Witness for accepts_scan_spec at a two-file chain. -/
theorem accepts_scan_spec_witness :
    (GitIgnoreChain.mk true [0]).in_repo = true ∧
    gTmp.accepts ⟨true, [0]⟩ "a.tmp".data "a.tmp".data false
      = acceptsSpec gTmp ⟨true, [0]⟩ "a.tmp".data "a.tmp".data false ∧
    gTmp.accepts ⟨true, [0]⟩ "a.tmp".data "a.tmp".data false = false :=
  ⟨rfl, accepts_scan_spec gTmp ⟨true, [0]⟩ "a.tmp".data "a.tmp".data false rfl, by decide⟩

/-! Claim C4. -/

/-- The loop of GitIgnoreFile::new on lines that all read correctly
collects exactly the parseable lines' rules, in file order, after the
accumulator. -/
theorem collectRules_ok (refDir : List Char) (lines : List (List Char)) (acc : List GitIgnoreRule) :
    collectRules refDir (lines.map some) acc
      = some (acc ++ lines.filterMap (GitIgnoreRule.fromLine · refDir)) := by
  induction lines generalizing acc with
  | nil => simp [collectRules]
  | cons l rest ih =>
    simp only [List.map_cons, collectRules, List.filterMap_cons]
    cases h : GitIgnoreRule.fromLine l refDir with
    | none => simp [h, ih]
    | some r => simp [h, ih]

/-- The file parsed from the two conflicting lines build/ then not-build/. -/
def buildFile : GitIgnoreFile :=
  (GitIgnoreFile.new (some [some "build/".data, some "!build/".data]) "x".data).getD ⟨[]⟩

/-- The file parsed from the two conflicting lines not-build/ then build/. -/
def buildFileSwapped : GitIgnoreFile :=
  (GitIgnoreFile.new (some [some "!build/".data, some "build/".data]) "x".data).getD ⟨[]⟩

/-- Claim C4: GitIgnoreFile::new stores the parsed rules in reverse of file
order, the first stored rule that applies decides the file's verdict, so
the verdict contributed by one file is that of the last matching line in
file order; in particular, for two conflicting lines build/ then a negated
build/ the later line wins (and symmetrically when the lines are swapped). -/
theorem file_last_matching_line_wins (lines : List (List Char)) (refDir path filename : List Char) (directory : Bool) :
    (GitIgnoreFile.new (some (lines.map some)) refDir
        = some ⟨(lines.filterMap (GitIgnoreRule.fromLine · refDir)).reverse⟩) ∧
    (rulesVerdict path filename directory (lines.filterMap (GitIgnoreRule.fromLine · refDir)).reverse
        = ((lines.filterMap (GitIgnoreRule.fromLine · refDir)).reverse.find?
             (ruleApplies path filename directory)).map GitIgnoreRule.ok) ∧
    (GitIgnorer.accepts ⟨[buildFile]⟩ ⟨true, [0]⟩ "x/build".data "build".data true = true) ∧
    (GitIgnorer.accepts ⟨[buildFileSwapped]⟩ ⟨true, [0]⟩ "x/build".data "build".data true = false) :=
  ⟨by simp [GitIgnoreFile.new, collectRules_ok],
   rulesVerdict_eq_find path filename directory _,
   by decide, by decide⟩

/-! Claim C9. -/

/-- Claim C9: a line yielding no rule (comment or uncompilable pattern) is
silently dropped: GitIgnoreFile::new gives the same result with the line
removed, and still returns a file with the rules of the remaining parseable
lines; moreover every line starting with a hash yields no rule, and a line
whose glob fails to compile (such as a**b) yields no rule. -/
theorem bad_line_dropped (pre post : List (List Char)) (bad refDir : List Char)
    (h : GitIgnoreRule.fromLine bad refDir = none) :
    (GitIgnoreFile.new (some ((pre ++ [bad] ++ post).map some)) refDir
        = GitIgnoreFile.new (some ((pre ++ post).map some)) refDir) ∧
    ((GitIgnoreFile.new (some ((pre ++ post).map some)) refDir).isSome = true) ∧
    (GitIgnoreRule.fromLine ('#' :: bad) refDir = none) ∧
    (GitIgnoreRule.ofString "a**b" "D" = none) := by
  refine ⟨?_, ?_, ?_, by decide⟩
  · simp only [GitIgnoreFile.new]
    rw [collectRules_ok, collectRules_ok]
    simp [List.filterMap_append, h]
  · simp only [GitIgnoreFile.new]
    rw [collectRules_ok]
    simp
  · simp [GitIgnoreRule.fromLine]

/-- Witness for bad_line_dropped: dropping a comment line between two plain
lines. -/
theorem bad_line_dropped_witness :
    (GitIgnoreFile.new (some (([ "a".data ] ++ [ "# c".data ] ++ [ "b".data ]).map some)) "x".data
        = GitIgnoreFile.new (some (([ "a".data ] ++ [ "b".data ]).map some)) "x".data) ∧
    ((GitIgnoreFile.new (some (([ "a".data ] ++ [ "b".data ]).map some)) "x".data).isSome = true) ∧
    (GitIgnoreRule.fromLine ('#' :: "# c".data) "x".data = none) ∧
    (GitIgnoreRule.ofString "a**b" "D" = none) :=
  bad_line_dropped ["a".data] ["b".data] "# c".data "x".data (by decide)

/-! Claim C5. -/

/-- Claim C5: when dir is itself a repository root, deeper_chain ignores the
parent chain entirely: the resulting chain is in_repo, its files are exactly
dir's global ignore file (if found) followed by dir's local ignore file (if
readable), and it holds none of the parent chain's references (the fresh
handles point past the parent's, which are valid arena indices). -/
theorem deeper_chain_repo_reset (g : GitIgnorer) (fs : FS) (parent : GitIgnoreChain) (dir : List String)
    (hrepo : fs.repos dir = true)
    (hvalid : ∀ id ∈ parent.file_ids, id < g.files.length) :
    ((g.deeper_chain fs parent dir).2.in_repo = true) ∧
    ((g.deeper_chain fs parent dir).2.file_ids.map (g.deeper_chain fs parent dir).1.fileAt
        = (GitIgnoreFile.global fs dir).toList
          ++ (GitIgnoreFile.new (fs.files (".gitignore" :: dir)) (pathStr dir)).toList) ∧
    (∀ id ∈ (g.deeper_chain fs parent dir).2.file_ids, id ∉ parent.file_ids) := by
  unfold GitIgnorer.deeper_chain
  cases hg : GitIgnoreFile.global fs dir with
  | none =>
    cases hn : GitIgnoreFile.new (fs.files (".gitignore" :: dir)) (pathStr dir) with
    | none =>
      simp [hrepo, hg, hn, GitIgnoreChain.push, GitIgnorer.alloc]
    | some gif =>
      simp [hrepo, hg, hn, GitIgnoreChain.push, GitIgnorer.alloc, fileAt_append_one]
      exact fun hmem => absurd (hvalid _ hmem) (by omega)
  | some glob =>
    cases hn : GitIgnoreFile.new (fs.files (".gitignore" :: dir)) (pathStr dir) with
    | none =>
      simp [hrepo, hg, hn, GitIgnoreChain.push, GitIgnorer.alloc, fileAt_append_one]
      exact fun hmem => absurd (hvalid _ hmem) (by omega)
    | some gif =>
      simp [hrepo, hg, hn, GitIgnoreChain.push, GitIgnorer.alloc, fileAt_append_fst,
        fileAt_append_snd]
      exact ⟨fun hmem => absurd (hvalid _ hmem) (by omega),
             fun hmem => absurd (hvalid _ hmem) (by omega)⟩

/-- A filesystem with a global ignore file and a repository at /r/v whose
local ignore file is readable. -/
def fsGlobal : FS :=
  { files := fun p =>
      if p = ["gi", "home"] then some [some "*.log".data]
      else if p = [".gitignore", "v", "r"] then some [some "*.tmp".data]
      else none
    repos := fun p => p == ["v", "r"]
    globalPath := some ["gi", "home"] }

/-- An arena holding one (empty) file, so that a parent handle 0 is valid. -/
def gOne : GitIgnorer := ⟨[⟨[]⟩]⟩

/-- Witness for deeper_chain_repo_reset: descending from a parent chain
holding handle 0 into the nested repository /r/v. -/
theorem deeper_chain_repo_reset_witness :
    ((gOne.deeper_chain fsGlobal ⟨true, [0]⟩ ["v", "r"]).2.in_repo = true) ∧
    ((gOne.deeper_chain fsGlobal ⟨true, [0]⟩ ["v", "r"]).2.file_ids.map
        (gOne.deeper_chain fsGlobal ⟨true, [0]⟩ ["v", "r"]).1.fileAt
        = (GitIgnoreFile.global fsGlobal ["v", "r"]).toList
          ++ (GitIgnoreFile.new (fsGlobal.files (".gitignore" :: ["v", "r"])) (pathStr ["v", "r"])).toList) ∧
    (∀ id ∈ (gOne.deeper_chain fsGlobal ⟨true, [0]⟩ ["v", "r"]).2.file_ids,
        id ∉ (GitIgnoreChain.mk true [0]).file_ids) :=
  deeper_chain_repo_reset gOne fsGlobal ⟨true, [0]⟩ ["v", "r"] (by decide) (by decide)

/-! Claim C1. -/

/-- A filesystem with a single repository at /repo containing one readable
ignore file. -/
def fsOneRepo : FS :=
  { files := fun p => if p = [".gitignore", "repo"] then some [some "*.tmp".data] else none
    repos := fun p => p == ["repo"]
    globalPath := none }

/-- Claim C1 counterexample: loading the same rule-file path a second time
through root_chain, without touching the store, re-parses the file and
allocates a fresh arena entry, and the two chains hold different handles
(the first call ends with one stored file and chain handle 0, the second
ends with two stored files and chain handle 1), contradicting the claim
that the second load adds no new entry and shares the same handle. -/
theorem resolver_reload_allocates_counterexample :
    ((GitIgnorer.root_chain {} fsOneRepo ["repo"]).1.files.length = 1) ∧
    ((GitIgnorer.root_chain {} fsOneRepo ["repo"]).2.file_ids = [0]) ∧
    (((GitIgnorer.root_chain {} fsOneRepo ["repo"]).1.root_chain fsOneRepo ["repo"]).1.files.length = 2) ∧
    (((GitIgnorer.root_chain {} fsOneRepo ["repo"]).1.root_chain fsOneRepo ["repo"]).2.file_ids = [1]) := by
  decide

/-- Claim C1 (amended): sharing happens only through chain derivation, not
through a path-keyed cache: deriving a child chain with deeper_chain (for a
non-repository child) keeps every already-stored file unchanged and starts
from the parent's handles, re-using them without re-reading those files;
each load of a rule file (in root_chain or deeper_chain) always reads and
parses it again into a fresh arena entry. -/
theorem deeper_chain_shares_parent_files (g : GitIgnorer) (fs : FS) (parent : GitIgnoreChain) (dir : List String)
    (hnr : fs.repos dir = false) :
    ((g.deeper_chain fs parent dir).1.files.take g.files.length = g.files) ∧
    ((g.deeper_chain fs parent dir).2.in_repo = parent.in_repo) ∧
    (∃ extra, (g.deeper_chain fs parent dir).2.file_ids = parent.file_ids ++ extra) := by
  unfold GitIgnorer.deeper_chain
  cases hin : parent.in_repo with
  | false => simp [hnr, hin, List.take_length]
  | true =>
    cases hn : GitIgnoreFile.new (fs.files (".gitignore" :: dir)) (pathStr dir) with
    | none => simp [hnr, hin, hn, List.take_length]
    | some gif =>
      simp [hnr, hin, hn, GitIgnorer.alloc, GitIgnoreChain.push, take_append_self]

/-- Witness for deeper_chain_shares_parent_files: descending into a plain
subdirectory of /repo re-uses the parent's handle 0 and keeps the stored
file intact while appending the subdirectory's own file. -/
theorem deeper_chain_shares_parent_files_witness :
    (((GitIgnorer.root_chain {} fsOneRepo ["repo"]).1.deeper_chain fsOneRepo
        (GitIgnorer.root_chain {} fsOneRepo ["repo"]).2 ["sub", "repo"]).1.files.take 1
      = (GitIgnorer.root_chain {} fsOneRepo ["repo"]).1.files) ∧
    (((GitIgnorer.root_chain {} fsOneRepo ["repo"]).1.deeper_chain fsOneRepo
        (GitIgnorer.root_chain {} fsOneRepo ["repo"]).2 ["sub", "repo"]).2.in_repo
      = (GitIgnorer.root_chain {} fsOneRepo ["repo"]).2.in_repo) ∧
    (∃ extra, ((GitIgnorer.root_chain {} fsOneRepo ["repo"]).1.deeper_chain fsOneRepo
        (GitIgnorer.root_chain {} fsOneRepo ["repo"]).2 ["sub", "repo"]).2.file_ids
      = (GitIgnorer.root_chain {} fsOneRepo ["repo"]).2.file_ids ++ extra) :=
  deeper_chain_shares_parent_files (GitIgnorer.root_chain {} fsOneRepo ["repo"]).1 fsOneRepo
    (GitIgnorer.root_chain {} fsOneRepo ["repo"]).2 ["sub", "repo"] (by decide)

/-! Claim C2. -/

/-- A repository at /r whose root ignore file keeps a.tmp, with a
subdirectory s whose ignore file ignores a.tmp. -/
def fsNested : FS :=
  { files := fun p =>
      if p = [".gitignore", "r"] then some [some "!a.tmp".data]
      else if p = [".gitignore", "s", "r"] then some [some "a.tmp".data]
      else none
    repos := fun p => p == ["r"]
    globalPath := none }

/-- Claim C2 counterexample: in the chain built by root_chain for /r/s, the
deeper directory's file (handle 0, parsed from /r/s/.gitignore) ignores
a.tmp while the shallower root file (handle 1, parsed from /r/.gitignore)
keeps it; both match, yet accepts returns the shallower file's verdict
(true), not the deeper one's (false), because the ascent appends deeper
files first and the reverse scan therefore consults the shallowest file
first. -/
theorem deeper_rule_override_counterexample :
    ((GitIgnorer.root_chain {} fsNested ["s", "r"]).2.file_ids = [0, 1]) ∧
    (rulesVerdict "r/s/a.tmp".data "a.tmp".data false
        ((GitIgnorer.root_chain {} fsNested ["s", "r"]).1.fileAt 0).rules = some false) ∧
    (rulesVerdict "r/s/a.tmp".data "a.tmp".data false
        ((GitIgnorer.root_chain {} fsNested ["s", "r"]).1.fileAt 1).rules = some true) ∧
    ((GitIgnorer.root_chain {} fsNested ["s", "r"]).1.accepts
        (GitIgnorer.root_chain {} fsNested ["s", "r"]).2 "r/s/a.tmp".data "a.tmp".data false = true) := by
  decide

/-- Pushing a freshly allocated file onto an in-repository chain makes that
file decide the query whenever one of its rules applies, overriding every
file already in the chain. -/
theorem accepts_after_push (g2 : GitIgnorer) (chain : GitIgnoreChain) (gif : GitIgnoreFile) (n : Nat)
    (path filename : List Char) (directory v : Bool)
    (hin : chain.in_repo = true)
    (hg2 : g2.files.getD n ⟨[]⟩ = gif)
    (hv : rulesVerdict path filename directory gif.rules = some v) :
    g2.accepts (chain.push n) path filename directory = v := by
  simp only [GitIgnorer.accepts, GitIgnoreChain.push, hin, Bool.not_true]
  rw [if_neg (by simp)]
  have hfa : g2.fileAt n = gif := hg2
  simp only [List.reverse_append, List.reverse_cons, List.reverse_nil, List.nil_append,
    List.singleton_append, chainVerdict, hfa, hv]

/-- Claim C2 (amended): the claimed deeper-wins behaviour holds for the
descent direction: when deeper_chain loads dir's own rule file (the chain
being in a repository, by inheritance or by reset), any applicable rule of
that file decides accepts for the derived chain, overriding every rule file
inherited from the parent chain; for chains built by the root_chain ascent
the opposite holds, as the counterexample shows. -/
theorem deeper_chain_local_rule_overrides (g : GitIgnorer) (fs : FS) (parent : GitIgnoreChain) (dir : List String)
    (gif : GitIgnoreFile) (path filename : List Char) (directory v : Bool)
    (hin : parent.in_repo = true ∨ fs.repos dir = true)
    (hnew : GitIgnoreFile.new (fs.files (".gitignore" :: dir)) (pathStr dir) = some gif)
    (hv : rulesVerdict path filename directory gif.rules = some v) :
    (g.deeper_chain fs parent dir).1.accepts (g.deeper_chain fs parent dir).2 path filename directory = v := by
  unfold GitIgnorer.deeper_chain
  cases hrepo : fs.repos dir with
  | true =>
    cases hg : GitIgnoreFile.global fs dir with
    | none =>
      simp [hrepo, hg, hnew, GitIgnorer.alloc, GitIgnoreChain.push]
      exact accepts_after_push ⟨g.files ++ [gif]⟩ ⟨true, []⟩ gif g.files.length
        path filename directory v rfl ((getD_append_self g.files [gif] ⟨[]⟩).trans rfl) hv
    | some glob =>
      simp [hrepo, hg, hnew, GitIgnorer.alloc, GitIgnoreChain.push]
      exact accepts_after_push ⟨g.files ++ [glob, gif]⟩ ⟨true, [g.files.length]⟩ gif
        (g.files.length + 1) path filename directory v rfl
        (getD_append_two g.files glob gif ⟨[]⟩) hv
  | false =>
    have hpin : parent.in_repo = true := by
      rcases hin with h | h
      · exact h
      · rw [hrepo] at h; exact absurd h (by simp)
    simp [hrepo, hpin, hnew, GitIgnorer.alloc]
    exact accepts_after_push ⟨g.files ++ [gif]⟩ parent gif g.files.length
      path filename directory v hpin ((getD_append_self g.files [gif] ⟨[]⟩).trans rfl) hv

/-- The rule file parsed from the single line a.tmp. -/
def tmpIgnoreFile : GitIgnoreFile :=
  ⟨[{ ok := false
      directory := false
      filename := true
      pattern := ⟨[PatternToken.lit 'a', PatternToken.lit '.',
                   PatternToken.lit 't', PatternToken.lit 'm', PatternToken.lit 'p']⟩
      pattern_options :=
        { case_sensitive := true
          require_literal_separator := false
          require_literal_leading_dot := false } }]⟩

/-- Witness for deeper_chain_local_rule_overrides: deriving the chain of
/r/s from the root chain of /r, the subdirectory's ignore rule for a.tmp
overrides the root file's keep rule. -/
theorem deeper_chain_local_rule_overrides_witness :
    ((GitIgnorer.root_chain {} fsNested ["r"]).1.deeper_chain fsNested
        (GitIgnorer.root_chain {} fsNested ["r"]).2 ["s", "r"]).1.accepts
      ((GitIgnorer.root_chain {} fsNested ["r"]).1.deeper_chain fsNested
        (GitIgnorer.root_chain {} fsNested ["r"]).2 ["s", "r"]).2
      "r/s/a.tmp".data "a.tmp".data false = false :=
  deeper_chain_local_rule_overrides (GitIgnorer.root_chain {} fsNested ["r"]).1 fsNested
    (GitIgnorer.root_chain {} fsNested ["r"]).2 ["s", "r"] tmpIgnoreFile
    "r/s/a.tmp".data "a.tmp".data false false (Or.inl (by decide)) (by decide) (by decide)

/-! Claim C10. -/

/-- The same filesystem with one path made unopenable. -/
def FS.without (fs : FS) (p : List String) : FS :=
  { fs with files := fun q => if q = p then none else fs.files q }

/-- The line loop fails on the first unreadable line, discarding the rules
already pushed onto the accumulator. -/
theorem collectRules_err (refDir : List Char) (pre : List (List Char)) (post : RawFile) (acc : List GitIgnoreRule) :
    collectRules refDir (pre.map some ++ none :: post) acc = none := by
  induction pre generalizing acc with
  | nil => rfl
  | cons l rest ih =>
    simp only [List.map_cons, List.cons_append, collectRules]
    cases hfl : GitIgnoreRule.fromLine l refDir <;> simp [hfl, ih]

/-- Reading any path gives the same parse result on the filesystem with the
bad file removed, because the bad file already fails to parse. -/
theorem new_without (fs : FS) (bad : List String) (pre : List (List Char)) (post : RawFile)
    (hbad : fs.files bad = some (pre.map some ++ none :: post)) (p : List String) (refDir : List Char) :
    GitIgnoreFile.new (fs.files p) refDir = GitIgnoreFile.new ((fs.without bad).files p) refDir := by
  by_cases hp : p = bad
  · subst hp
    rw [hbad]
    simp [FS.without, GitIgnoreFile.new, collectRules_err]
  · simp [FS.without, hp]

/-- The global ignore file parses the same way with the bad file removed. -/
theorem global_without (fs : FS) (bad : List String) (pre : List (List Char)) (post : RawFile)
    (hbad : fs.files bad = some (pre.map some ++ none :: post)) (d : List String) :
    GitIgnoreFile.global fs d = GitIgnoreFile.global (fs.without bad) d := by
  cases hgp : fs.globalPath with
  | none => simp [GitIgnoreFile.global, FS.without, hgp]
  | some gp =>
    simp only [GitIgnoreFile.global, FS.without, hgp]
    exact new_without fs bad pre post hbad gp (pathStr d)

/-- One ascent step is unchanged by removing the unparseable file. -/
theorem rootChainStep_without (fs : FS) (bad : List String) (pre : List (List Char)) (post : RawFile)
    (hbad : fs.files bad = some (pre.map some ++ none :: post)) (dir : List String) (g : GitIgnorer) (chain : GitIgnoreChain) :
    rootChainStep fs g chain dir = rootChainStep (fs.without bad) g chain dir := by
  unfold rootChainStep
  have hrep : (fs.without bad).repos = fs.repos := rfl
  rw [hrep, ← new_without fs bad pre post hbad, ← global_without fs bad pre post hbad]

/-- The ascent loop is unchanged by removing the unparseable file. -/
theorem rootChainGo_without (fs : FS) (bad : List String) (pre : List (List Char)) (post : RawFile)
    (hbad : fs.files bad = some (pre.map some ++ none :: post)) (dir : List String) :
    ∀ g chain, GitIgnorer.rootChainGo fs g chain dir = GitIgnorer.rootChainGo (fs.without bad) g chain dir := by
  induction dir with
  | nil =>
    intro g chain
    unfold GitIgnorer.rootChainGo
    have hrep : (fs.without bad).repos = fs.repos := rfl
    rw [hrep, ← rootChainStep_without fs bad pre post hbad]
  | cons d rest ih =>
    intro g chain
    unfold GitIgnorer.rootChainGo
    have hrep : (fs.without bad).repos = fs.repos := rfl
    rw [hrep, ← rootChainStep_without fs bad pre post hbad]
    cases hrepo : fs.repos (d :: rest) with
    | true => simp [hrepo]
    | false =>
      simp only [hrepo]
      simp only [Bool.false_eq_true, if_false]
      exact ih _ _

/-- Claim C10: when reading one line of an opened rule file fails, new
returns an error and discards every rule parsed from the earlier lines
(regardless of how many lines parsed before the failure), and both chain
builders construct exactly the chains they would construct if the file were
absent from the filesystem. -/
theorem line_read_failure_discards_file (fs : FS) (bad : List String) (pre : List (List Char)) (post : RawFile) (refDir : List Char)
    (hbad : fs.files bad = some (pre.map some ++ none :: post)) :
    (GitIgnoreFile.new (fs.files bad) refDir = none) ∧
    (∀ g dir, GitIgnorer.root_chain g fs dir = GitIgnorer.root_chain g (fs.without bad) dir) ∧
    (∀ g parent dir, GitIgnorer.deeper_chain g fs parent dir = GitIgnorer.deeper_chain g (fs.without bad) parent dir) := by
  refine ⟨?_, ?_, ?_⟩
  · rw [hbad]
    simp [GitIgnoreFile.new, collectRules_err]
  · intro g dir
    exact rootChainGo_without fs bad pre post hbad dir g {}
  · intro g parent dir
    unfold GitIgnorer.deeper_chain
    have hrep : (fs.without bad).repos = fs.repos := rfl
    rw [hrep, ← new_without fs bad pre post hbad, ← global_without fs bad pre post hbad]

/-- A repository at /b whose ignore file has a readable first and third line
and an unreadable second line. -/
def fsBadLine : FS :=
  { files := fun p =>
      if p = [".gitignore", "b"] then some [some "a".data, none, some "b".data] else none
    repos := fun p => p == ["b"]
    globalPath := none }

/-- Witness for line_read_failure_discards_file on fsBadLine. -/
theorem line_read_failure_discards_file_witness :
    (GitIgnoreFile.new (fsBadLine.files [".gitignore", "b"]) "b".data = none) ∧
    (∀ g dir, GitIgnorer.root_chain g fsBadLine dir
        = GitIgnorer.root_chain g (fsBadLine.without [".gitignore", "b"]) dir) ∧
    (∀ g parent dir, GitIgnorer.deeper_chain g fsBadLine parent dir
        = GitIgnorer.deeper_chain g (fsBadLine.without [".gitignore", "b"]) parent dir) :=
  line_read_failure_discards_file fsBadLine [".gitignore", "b"] ["a".data] [some "b".data]
    "b".data (by decide)

/-! Claim C7. -/

/-- The rule compiled from the line /build against reference directory D:
anchored to D, matched against the full path with literal separators. -/
def buildRule : GitIgnoreRule :=
  { ok := false
    directory := false
    filename := false
    pattern := ⟨[PatternToken.lit 'D', PatternToken.lit '/', PatternToken.lit 'b',
                 PatternToken.lit 'u', PatternToken.lit 'i', PatternToken.lit 'l',
                 PatternToken.lit 'd']⟩
    pattern_options :=
      { case_sensitive := true
        require_literal_separator := true
        require_literal_leading_dot := false } }

/-- Claim C7: for a line whose captured pattern body begins with a slash,
the compiled rule's pattern is the reference directory prefixed to the
body, the rule is not filename-only (the flag comes from the body before
anchoring), and literal separator matching is required; concretely, the
rule of the line /build with reference directory D matches the path D/build
and not D/sub/build. -/
theorem anchored_rule_prefixed (line refDir : List Char) (neg : Bool) (body : List Char) (dirFlag : Bool) (r : GitIgnoreRule)
    (hcap : startMatch line = some (neg, body, dirFlag))
    (hhead : body.head? = some '/')
    (hr : GitIgnoreRule.fromLine line refDir = some r) :
    (Pattern.new (refDir ++ body) = some r.pattern) ∧
    (r.filename = false) ∧
    (r.pattern_options.require_literal_separator = true) ∧
    (GitIgnoreRule.ofString "/build" "D" = some buildRule) ∧
    (buildRule.pattern.matchesPathWith "D/build".data buildRule.pattern_options = true) ∧
    (buildRule.pattern.matchesPathWith "D/sub/build".data buildRule.pattern_options = false) := by
  have hsep : '/' ∈ body := by
    cases body with
    | nil => simp at hhead
    | cons a t =>
      simp at hhead
      subst hhead
      exact List.mem_cons_self _ _
  unfold GitIgnoreRule.fromLine at hr
  by_cases hcom : line.head? = some '#'
  · rw [if_pos hcom] at hr
    exact absurd hr (by simp)
  · rw [if_neg hcom, hcap] at hr
    simp [hsep, hhead] at hr
    cases hpn : Pattern.new (refDir ++ body) with
    | none =>
      rw [hpn] at hr
      exact absurd hr (by simp)
    | some pat =>
      rw [hpn] at hr
      simp only [Option.some_inj] at hr
      subst hr
      exact ⟨rfl, rfl, rfl, by decide, by decide, by decide⟩

/-- Witness for anchored_rule_prefixed at the line /build with reference
directory D. -/
theorem anchored_rule_prefixed_witness :
    (Pattern.new ("D".data ++ "/build".data) = some buildRule.pattern) ∧
    (buildRule.filename = false) ∧
    (buildRule.pattern_options.require_literal_separator = true) ∧
    (GitIgnoreRule.ofString "/build" "D" = some buildRule) ∧
    (buildRule.pattern.matchesPathWith "D/build".data buildRule.pattern_options = true) ∧
    (buildRule.pattern.matchesPathWith "D/sub/build".data buildRule.pattern_options = false) :=
  anchored_rule_prefixed "/build".data "D".data false "/build".data false buildRule
    (by decide) (by decide) (by decide)

/-! Claim C8. -/

/-- One-step unfolding of bodyMatch on a nonempty list. -/
theorem bodyMatch_cons (c : Char) (rest : List Char) :
    bodyMatch (c :: rest)
      = if c = '\n' then none
        else
          match tailMatch rest with
          | some d => some ([c], d)
          | none =>
            match bodyMatch rest with
            | some (b, d) => some (c :: b, d)
            | none => none := rfl

/-- One-step unfolding of bangMatch on a nonempty list. -/
theorem bangMatch_cons (c : Char) (rest : List Char) :
    bangMatch (c :: rest)
      = if c = '!' then
          match bodyMatch rest with
          | some (b, d) => some (true, b, d)
          | none => (bodyMatch (c :: rest)).map fun bd => (false, bd.1, bd.2)
        else (bodyMatch (c :: rest)).map fun bd => (false, bd.1, bd.2) := rfl

/-- One-step unfolding of startMatch on a nonempty list. -/
theorem startMatch_cons (c : Char) (rest : List Char) :
    startMatch (c :: rest)
      = if isWs c then
          match startMatch rest with
          | some r => some r
          | none => bangMatch (c :: rest)
        else bangMatch (c :: rest) := rfl

/-- A list whose last element is not whitespace is not all whitespace. -/
theorem all_ws_false_of_getLast (L : List Char) (c : Char)
    (hl : L.getLast? = some c) (hc : isWs c = false) : L.all isWs = false := by
  induction L with
  | nil => simp at hl
  | cons a t ih =>
    cases t with
    | nil =>
      simp at hl
      subst hl
      simp [hc]
    | cons b t2 =>
      rw [List.getLast?_cons_cons] at hl
      simp [List.all_cons, ih hl]

/-- Appending all-whitespace characters keeps a list not all whitespace. -/
theorem all_ws_append_false (R tws : List Char) (h : R.all isWs = false) (htws : tws.all isWs = true) :
    (R ++ tws).all isWs = false := by
  simp [List.all_append, htws, h]

/-- On an all-whitespace remainder the tail of the regex matches without the
slash. -/
theorem tailMatch_allws (t : List Char) (h : t.all isWs = true) : tailMatch t = some false := by
  cases t with
  | nil => rfl
  | cons c rest =>
    have hc : isWs c = true := by
      rw [List.all_cons, Bool.and_eq_true] at h
      exact h.1
    have hslash : c ≠ '/' := by
      intro he
      subst he
      exact absurd hc (by decide)
    simp [tailMatch, hslash, h]

/-- Trailing whitespace after a remainder that ends in a non-whitespace
character does not change the tail match. -/
theorem tailMatch_append (M tws : List Char) (c : Char)
    (hlast : M.getLast? = some c) (hc : isWs c = false) (htws : tws.all isWs = true) :
    tailMatch (M ++ tws) = tailMatch M := by
  cases M with
  | nil => simp at hlast
  | cons a R =>
    cases R with
    | nil =>
      simp at hlast
      subst hlast
      by_cases ha : a = '/'
      · subst ha
        simp [tailMatch, htws]
      · simp [tailMatch, ha, hc, htws]
    | cons b R2 =>
      rw [List.getLast?_cons_cons] at hlast
      have hallR : (b :: R2).all isWs = false := all_ws_false_of_getLast _ _ hlast hc
      have h1 : ((b :: R2) ++ tws).all isWs = false := all_ws_append_false _ _ hallR htws
      simp only [List.cons_append] at h1
      simp [tailMatch, List.cons_append, h1, hallR]

/-- Trailing whitespace after a body that ends in a non-whitespace character
changes neither the captured body nor the directory flag, and the body match
always succeeds on such a remainder. -/
theorem bodyMatch_append (tws : List Char) (htws : tws.all isWs = true) (c : Char) (hc : isWs c = false) :
    ∀ M : List Char, M.getLast? = some c → '\n' ∉ M →
      bodyMatch (M ++ tws) = bodyMatch M ∧ (bodyMatch M).isSome = true := by
  intro M
  induction M with
  | nil =>
    intro hlast
    simp at hlast
  | cons a R ih =>
    intro hlast hnl
    have hannl : a ≠ '\n' := by
      intro he
      subst he
      exact hnl (List.mem_cons_self _ _)
    cases R with
    | nil =>
      simp at hlast
      subst hlast
      constructor
      · simp only [List.cons_append, List.nil_append]
        rw [bodyMatch_cons, if_neg hannl, tailMatch_allws tws htws, bodyMatch_cons, if_neg hannl]
        rfl
      · rw [bodyMatch_cons, if_neg hannl]
        rfl
    | cons b R2 =>
      rw [List.getLast?_cons_cons] at hlast
      have hnlR : '\n' ∉ (b :: R2) := fun hmem => hnl (List.mem_cons_of_mem _ hmem)
      have htm : tailMatch ((b :: R2) ++ tws) = tailMatch (b :: R2) :=
        tailMatch_append _ _ c hlast hc htws
      simp only [List.cons_append] at htm
      obtain ⟨ihe, ihs⟩ := ih hlast hnlR
      simp only [List.cons_append] at ihe
      cases htmc : tailMatch (b :: R2) with
      | some d =>
        rw [htmc] at htm
        constructor
        · simp only [List.cons_append]
          conv_rhs => rw [bodyMatch_cons, if_neg hannl, htmc]
          conv_lhs => rw [bodyMatch_cons, if_neg hannl, htm]
        · rw [bodyMatch_cons, if_neg hannl, htmc]
          rfl
      | none =>
        rw [htmc] at htm
        obtain ⟨bd, hbm⟩ := Option.isSome_iff_exists.mp ihs
        rw [hbm] at ihe
        constructor
        · simp only [List.cons_append]
          conv_rhs => rw [bodyMatch_cons, if_neg hannl, htmc, hbm]
          conv_lhs => rw [bodyMatch_cons, if_neg hannl, htm, ihe]
        · rw [bodyMatch_cons, if_neg hannl, htmc, hbm]
          rfl

/-- Trailing whitespace does not change the negation group either, except on
the excluded line consisting of a single bang. -/
theorem bangMatch_append (tws : List Char) (htws : tws.all isWs = true) (c : Char) (hc : isWs c = false)
    (M : List Char) (hlast : M.getLast? = some c) (hnl : '\n' ∉ M)
    (hbang : M = ['!'] → tws = []) :
    bangMatch (M ++ tws) = bangMatch M ∧ (bangMatch M).isSome = true := by
  cases M with
  | nil => simp at hlast
  | cons a R =>
    by_cases ha : a = '!'
    · subst ha
      cases R with
      | nil =>
        have htnil : tws = [] := hbang rfl
        subst htnil
        exact ⟨by simp, by decide⟩
      | cons b R2 =>
        rw [List.getLast?_cons_cons] at hlast
        have hnlR : '\n' ∉ (b :: R2) := fun h => hnl (List.mem_cons_of_mem _ h)
        obtain ⟨he, hs⟩ := bodyMatch_append tws htws c hc (b :: R2) hlast hnlR
        obtain ⟨bd, hbd⟩ := Option.isSome_iff_exists.mp hs
        rw [hbd] at he
        simp only [List.cons_append] at he
        constructor
        · simp only [List.cons_append]
          rw [bangMatch_cons, if_pos rfl, he, bangMatch_cons, if_pos rfl, hbd]
        · rw [bangMatch_cons, if_pos rfl, hbd]
          rfl
    · obtain ⟨he, hs⟩ := bodyMatch_append tws htws c hc (a :: R) hlast hnl
      constructor
      · simp only [List.cons_append]
        rw [bangMatch_cons, if_neg ha, bangMatch_cons, if_neg ha]
        exact congrArg _ he
      · rw [bangMatch_cons, if_neg ha]
        simp [hs]

/-- Leading whitespace is consumed by the greedy prefix whenever the rest of
the line matches, so it does not change the captures. -/
theorem startMatch_ws_append (lws : List Char) (hlws : lws.all isWs = true)
    (R : List Char) (c0 : Char) (hR : R.head? = some c0) (hc0 : isWs c0 = false)
    (hsome : (bangMatch R).isSome = true) :
    startMatch (lws ++ R) = bangMatch R := by
  induction lws with
  | nil =>
    cases R with
    | nil => simp at hR
    | cons a rest =>
      simp at hR
      subst hR
      rw [List.nil_append, startMatch_cons, if_neg (by simp [hc0])]
  | cons w lws2 ih =>
    rw [List.all_cons, Bool.and_eq_true] at hlws
    obtain ⟨hw, hlws2⟩ := hlws
    obtain ⟨r, hr⟩ := Option.isSome_iff_exists.mp hsome
    have ihe := ih hlws2
    simp only [List.cons_append]
    rw [startMatch_cons, if_pos (by simp [hw]), ihe, hr]

/-- Claim C8 (amended): parsing ignores surrounding whitespace for every
line whose trimmed content is nonempty, does not start with a hash, contains
no embedded newline, and is not a single bang followed by trailing
whitespace: GitIgnoreRule::from returns the same result on the padded and
on the trimmed line.  The excluded cases are real divergences, witnessed by
the counterexample: a whitespace-only line yields a rule whose pattern is a
single space, and a hash preceded by whitespace is not treated as a comment
because the comment check runs on the untrimmed line. -/
theorem fromLine_trim_equiv (lws M tws refDir : List Char) (c0 cl : Char)
    (hlws : lws.all isWs = true) (htws : tws.all isWs = true)
    (hhead : M.head? = some c0) (hc0 : isWs c0 = false) (hc0h : c0 ≠ '#')
    (hlast : M.getLast? = some cl) (hcl : isWs cl = false)
    (hnl : '\n' ∉ M)
    (hbang : M = ['!'] → tws = []) :
    GitIgnoreRule.fromLine (lws ++ M ++ tws) refDir = GitIgnoreRule.fromLine M refDir := by
  obtain ⟨hbe, hbs⟩ := bangMatch_append tws htws cl hcl M hlast hnl hbang
  have hMtws_head : (M ++ tws).head? = some c0 := by
    cases M with
    | nil => simp at hhead
    | cons a R =>
      simp at hhead
      subst hhead
      rfl
  have hsome2 : (bangMatch (M ++ tws)).isSome = true := by
    rw [hbe]
    exact hbs
  have hsm1 : startMatch (lws ++ (M ++ tws)) = bangMatch (M ++ tws) :=
    startMatch_ws_append lws hlws (M ++ tws) c0 hMtws_head hc0 hsome2
  have hsm2 : startMatch M = bangMatch M := by
    have h := startMatch_ws_append [] rfl M c0 hhead hc0 hbs
    simpa using h
  have hcm1 : ¬ (lws ++ (M ++ tws)).head? = some '#' := by
    cases lws with
    | nil =>
      simp only [List.nil_append, hMtws_head]
      intro h
      exact hc0h (Option.some_inj.mp h)
    | cons w lws2 =>
      have hw : isWs w = true := by
        rw [List.all_cons, Bool.and_eq_true] at hlws
        exact hlws.1
      simp only [List.cons_append, List.head?_cons]
      intro h
      rw [Option.some_inj.mp h] at hw
      exact absurd hw (by decide)
  have hcm2 : ¬ M.head? = some '#' := by
    rw [hhead]
    intro h
    exact hc0h (Option.some_inj.mp h)
  unfold GitIgnoreRule.fromLine
  rw [List.append_assoc, if_neg hcm1, if_neg hcm2, hsm1, hbe, hsm2]

/-- Claim C8 counterexample: a line of three spaces yields a rule (whose
pattern is a single space) while the empty line, its trimmed form, yields
none; and a line whose hash is preceded by whitespace still yields a rule
while the trimmed line is a comment yielding none. -/
theorem fromLine_whitespace_counterexample :
    ((GitIgnoreRule.ofString "   " "x").isSome = true) ∧
    (GitIgnoreRule.ofString "   " "x" ≠ GitIgnoreRule.ofString "" "x") ∧
    ((GitIgnoreRule.ofString " # c" "x").isSome = true) ∧
    (GitIgnoreRule.ofString "# c" "x" = none) := by
  decide

/-- Witness for fromLine_trim_equiv: one space of padding on each side of
the line foo parses like the bare line. -/
theorem fromLine_trim_equiv_witness :
    (GitIgnoreRule.fromLine (([' '] ++ "foo".data) ++ [' ']) "x".data
       = GitIgnoreRule.fromLine "foo".data "x".data) ∧
    (([' '] ++ "foo".data) ++ [' '] = " foo ".data) :=
  ⟨fromLine_trim_equiv [' '] "foo".data [' '] "x".data 'f' 'o' (by decide) (by decide)
      (by decide) (by decide) (by decide) (by decide) (by decide) (by decide) (by decide),
   by decide⟩

end Broot
